import Mathlib

/- Verification development for the controlled-input library.

   Shallow embedding of the library's data model and operations:
   - JavaScript-like runtime values (the code branches on null, undefined
     and truthiness, and otherwise treats values opaquely);
   - the Entity draft/saved container (src/entity.ts);
   - the entity lifecycle controller operations (src/useEntity.ts);
   - object paths (objectPath.ts), diagnostics and maxSeverity
     (diagnostic.ts). -/

/-- A JavaScript runtime value, as far as the library inspects one: the code
branches on `null`, `undefined` and on JS truthiness, and otherwise treats
values opaquely.  Objects are embedded as association lists of fields. -/
inductive JSVal : Type where
  | null : JSVal
  | undef : JSVal
  | bool (b : Bool) : JSVal
  | num (n : Int) : JSVal
  | str (s : String) : JSVal
  | obj (fields : List (String × JSVal)) : JSVal

/-- JS truthiness: `null`, `undefined`, `false`, `0` and the empty string are
falsy; every other value (including empty objects and arrays) is truthy. -/
def JSVal.truthy : JSVal → Bool
  | .null => false
  | .undef => false
  | .bool b => b
  | .num n => n != 0
  | .str s => s != ""
  | .obj _ => true

/-- util.ts `isNonVoid`: `value !== null && value !== undefined`. -/
def isNonVoid : JSVal → Bool
  | .null => false
  | .undef => false
  | _ => true

/-- Modelled from the spec: the `Severity` enumeration.  Its source file
(`severity.ts`) is imported by diagnostic.ts but is not present in the
sources; the spec fixes the order "Error < Warning < Info, lower ordinal =
more severe" with Error the most severe. -/
inductive Severity : Type where
  | Error : Severity
  | Warning : Severity
  | Info : Severity
deriving DecidableEq

/-- The numeric ordinal of a severity (`sortBy` keys on this; the spec says
"lower ordinal = more severe" with Error most severe). -/
def Severity.ordinal : Severity → Nat
  | .Error => 0
  | .Warning => 1
  | .Info => 2

/-- objectPath.ts represents an `ObjectPath` as a branded JS string; JS
strings are embedded as lists of characters. -/
abbrev ObjectPath : Type := List Char

/-- diagnostic.ts `Diagnostic`: message, validation type, severity, object
path and optional nested diagnostic.  An inductive rather than a structure
because of the `next` self-nesting. -/
inductive Diagnostic : Type where
  | mk (message : String) (type : String) (severity : Severity)
      (path : ObjectPath) (next : Option Diagnostic) : Diagnostic

/-- The `severity` field of a diagnostic. -/
def Diagnostic.severity : Diagnostic → Severity
  | .mk _ _ s _ _ => s

/-- The `message` field of a diagnostic. -/
def Diagnostic.message : Diagnostic → String
  | .mk m _ _ _ _ => m

/-- validator.ts `Validator<T>`: a function from a value to a list of
diagnostics. -/
abbrev Validator : Type := JSVal → List Diagnostic

/-- entity.ts `Entity<T>`: the draft and saved values (each possibly null),
the diagnostics list, and the optional in-flight flags. -/
structure Entity : Type where
  draft : JSVal
  saved : JSVal
  diagnostics : List Diagnostic
  isSaving : Option Bool := none
  isDeleting : Option Bool := none

/-- entity.ts `Entity.latestValue`: the JS expression
`entity.draft || entity.saved`.  JS `||` falls back to `saved` whenever
`draft` is falsy, not merely when it is null. -/
def Entity.latestValue (entity : Entity) : JSVal :=
  if entity.draft.truthy then entity.draft else entity.saved

/-- entity.ts `Entity.createUnsaved`. -/
def Entity.createUnsaved (draft : JSVal) : Entity :=
  { draft := draft, diagnostics := [], saved := JSVal.null }

/-- entity.ts `Entity.createSaved`. -/
def Entity.createSaved (saved : JSVal) : Entity :=
  { draft := JSVal.null, diagnostics := [], saved := saved }

/-- useEntity.ts `update`: sets the draft and recomputes diagnostics with the
live validator. -/
def update (validator : Validator) (e : Entity) (newValue : JSVal) : Entity :=
  { e with draft := newValue, diagnostics := validator newValue }

/-- useEntity.ts `updateSaved`: sets the saved value only. -/
def updateSaved (e : Entity) (value : JSVal) : Entity :=
  { e with saved := value }

/-- useEntity.ts `setSaving`. -/
def setSaving (e : Entity) (isSaving : Bool) : Entity :=
  { e with isSaving := some isSaving }

/-- The success branch of `save` settlement in isolation (the `setInner` call
inside the `try` block of useEntity.ts `save`): `current` is the live entity
when the promise resolves — other updates may have run in between — while
`valueAtSaveTime` was captured when `save` was called. -/
def settleSuccess (validator : Validator) (current : Entity)
    (valueAtSaveTime fromPromise : JSVal) : Entity :=
  let saved := if isNonVoid fromPromise then fromPromise else valueAtSaveTime
  { current with
    isSaving := some false
    draft := JSVal.null
    saved := saved
    diagnostics := validator saved }

/-- The failure branch of `save` settlement in isolation (the `setInner` call
inside the `catch` block of useEntity.ts `save`). -/
def settleFailure (current : Entity) : Entity :=
  { current with isSaving := some false }

/-- The outcome of the caller-supplied save promise. -/
inductive SaveResult : Type where
  | resolved (value : JSVal) : SaveResult
  | rejected (error : JSVal) : SaveResult

/-- useEntity.ts `save`, for a run in which no other state update interleaves
between the call and the settlement of `savePromise`: it captures
`valueAtSaveTime := Entity.latestValue(liveEntity.current)`, sets `isSaving`,
then applies the settlement branch of the source.  `isUnmounted` is the
liveness flag read when the promise settles.  Returns the final entity state
together with the rejection value (if any) of the promise that `save` itself
returns; note that the `catch` block of the source rethrows unconditionally,
so a rejection propagates even when `isUnmounted` is true. -/
def save (validator : Validator) (isUnmounted : Bool) (e : Entity) :
    SaveResult → Entity × Option JSVal
  | .resolved fromPromise =>
      let valueAtSaveTime := e.latestValue
      let e1 := { e with isSaving := some true }
      if isUnmounted then (e1, none)
      else (settleSuccess validator e1 valueAtSaveTime fromPromise, none)
  | .rejected err =>
      let e1 := { e with isSaving := some true }
      if isUnmounted then (e1, some err)
      else (settleFailure e1, some err)

/-- The draft object `{a: 1}` used by the save scenarios of the spec. -/
def draftA1 : JSVal := JSVal.obj [("a", JSVal.num 1)]

/-- The saved object `{a: 0}` used by the save scenarios of the spec. -/
def savedA0 : JSVal := JSVal.obj [("a", JSVal.num 0)]

/-- The entity with draft `{a: 1}` and saved `{a: 0}` from the spec's save
scenarios. -/
def entityA : Entity := { draft := draftA1, saved := savedA0, diagnostics := [] }

/-- Claim C1: the claim states that `latestValue` returns the draft whenever
the draft is non-null and that `latestValue(createUnsaved(v)) = v` for every
`v`.  The code evaluates `entity.draft || entity.saved`, so a falsy but
non-null draft — the number `0` here — falls through to `saved`, which is
null for an unsaved entity: `latestValue(createUnsaved(0))` is `null`, not
`0`, contradicting the function's own documented contract of returning a
non-null `T`. -/
theorem c1_latestValue_falsy_draft :
    Entity.latestValue (Entity.createUnsaved (JSVal.num 0)) = JSVal.null ∧
      JSVal.null ≠ JSVal.num 0 :=
  ⟨rfl, fun h => JSVal.noConfusion h⟩

/-- Claim C2: a `save` whose promise resolves, on a live session and with no
interleaved updates, sets `saved` to the resolved value when it is non-absent
and to the value captured by `latestValue` at call time otherwise, clears
`draft` to null, clears `isSaving`, replaces the diagnostics with the
validator applied to the new saved value, and the promise returned by `save`
resolves.  In particular, on the entity with draft `{a:1}` and saved `{a:0}`,
resolving with `undefined` ends with draft null, saved `{a:1}` and
`isSaving` false. -/
theorem c2_save_success :
    (∀ (validator : Validator) (e : Entity) (v : JSVal),
      (save validator false e (SaveResult.resolved v)).1.saved =
          (if isNonVoid v then v else e.latestValue) ∧
        (save validator false e (SaveResult.resolved v)).1.draft = JSVal.null ∧
        (save validator false e (SaveResult.resolved v)).1.isSaving = some false ∧
        (save validator false e (SaveResult.resolved v)).1.diagnostics =
          validator (if isNonVoid v then v else e.latestValue) ∧
        (save validator false e (SaveResult.resolved v)).2 = none) ∧
      ∀ validator : Validator,
        (save validator false entityA (SaveResult.resolved JSVal.undef)).1.draft
            = JSVal.null ∧
          (save validator false entityA (SaveResult.resolved JSVal.undef)).1.saved
            = draftA1 ∧
          (save validator false entityA (SaveResult.resolved JSVal.undef)).1.isSaving
            = some false :=
  ⟨fun _ _ _ => ⟨rfl, rfl, rfl, rfl, rfl⟩, fun _ => ⟨rfl, rfl, rfl⟩⟩

/-- Claim C3: a `save` whose promise rejects with `err`, on a live session,
ends with `isSaving` cleared to false, `draft` and `saved` exactly as they
were, and the promise returned by `save` rejecting with the same `err`; in
particular on the entity with draft `{a:1}` and saved `{a:0}` the final state
is draft `{a:1}`, saved `{a:0}`, `isSaving` false. -/
theorem c3_save_failure :
    (∀ (validator : Validator) (e : Entity) (err : JSVal),
      save validator false e (SaveResult.rejected err) =
        ({ e with isSaving := some false }, some err)) ∧
      ∀ (validator : Validator) (err : JSVal),
        (save validator false entityA (SaveResult.rejected err)).1.draft = draftA1 ∧
          (save validator false entityA (SaveResult.rejected err)).1.saved = savedA0 ∧
          (save validator false entityA (SaveResult.rejected err)).1.isSaving
            = some false ∧
          (save validator false entityA (SaveResult.rejected err)).2 = some err :=
  ⟨fun _ _ _ => rfl, fun _ _ => ⟨rfl, rfl, rfl, rfl⟩⟩

/-- Counterexample to claim C4: the claim states that when the session has
been torn down before settlement, a rejection is swallowed and the promise
returned by `save` does not reject.  In the source the `throw e` in the
`catch` block is outside the `if (!isUnmounted.current)` guard, so the
rejection is rethrown even after unmount: here, with `isUnmounted = true`,
the promise returned by `save` still rejects with the error. -/
theorem c4_unmounted_rejection_rethrown_cex :
    (save (fun _ => []) true entityA
        (SaveResult.rejected (JSVal.str "boom"))).2 = some (JSVal.str "boom") :=
  rfl

/-- Claim C4 as amended: if the session has been torn down before the promise
settles, the settlement mutates no state (the entity keeps the state set when
`save` was called, namely `isSaving = true`), but on rejection the error is
still rethrown to the caller — the promise returned by `save` rejects with
the same error even when the session is no longer live. -/
theorem c4_unmounted_settlement_amended :
    ∀ (validator : Validator) (e : Entity) (v err : JSVal),
      save validator true e (SaveResult.resolved v) =
          ({ e with isSaving := some true }, none) ∧
        save validator true e (SaveResult.rejected err) =
          ({ e with isSaving := some true }, some err) :=
  fun _ _ _ _ => ⟨rfl, rfl⟩

/-- Counterexample to claim C6: the mode invariant "draft and saved are never
both null" is not preserved by save settlement when the draft is falsy but
non-null.  Starting from `createUnsaved(0)` (a legal `Entity<number>`), a
`save` whose promise resolves to `undefined` captures
`valueAtSaveTime = 0 || null = null` (JS truthiness), then clears the draft
and stores the captured null as the new saved value: the resulting state has
both `draft` and `saved` null. -/
theorem c6_mode_invariant_cex :
    (save (fun _ => []) false (Entity.createUnsaved (JSVal.num 0))
        (SaveResult.resolved JSVal.undef)).1.draft = JSVal.null ∧
      (save (fun _ => []) false (Entity.createUnsaved (JSVal.num 0))
          (SaveResult.resolved JSVal.undef)).1.saved = JSVal.null :=
  ⟨rfl, rfl⟩

/-- Controller states reachable from a freshly created entity when every draft
value supplied (the `createUnsaved` argument and every `update` argument) is
truthy and every saved value supplied (the `createSaved` argument and every
`updateSaved` argument) is non-null — the precondition of the amended claim
C6.  The constructors follow useEntity.ts: the create functions (plus the
initial revalidation and the validator-identity-change republication, both of
which only replace `diagnostics`), `update`, `updateSaved`, `setSaving`, the
synchronous `isSaving := true` at the start of `save`, and the two settlement
branches.  In `settleS` the captured `valueAtSaveTime` is `latestValue` of
the (reachable) entity at call time, while `e` is the (reachable) live entity
at settlement time, so interleaved updates are covered. -/
inductive ReachableGood : Entity → Prop where
  | createU (v : JSVal) : v.truthy = true → ReachableGood (Entity.createUnsaved v)
  | createS (v : JSVal) : v ≠ JSVal.null → ReachableGood (Entity.createSaved v)
  | revalidate (validator : Validator) (e : Entity) : ReachableGood e →
      ReachableGood { e with diagnostics := validator e.latestValue }
  | upd (validator : Validator) (e : Entity) (v : JSVal) : ReachableGood e →
      v.truthy = true → ReachableGood (update validator e v)
  | updSaved (e : Entity) (v : JSVal) : ReachableGood e → v ≠ JSVal.null →
      ReachableGood (updateSaved e v)
  | setSav (e : Entity) (b : Bool) : ReachableGood e →
      ReachableGood (setSaving e b)
  | saveStart (e : Entity) : ReachableGood e →
      ReachableGood { e with isSaving := some true }
  | settleS (validator : Validator) (ecall e : Entity) (r : JSVal) :
      ReachableGood ecall → ReachableGood e →
      ReachableGood (settleSuccess validator e (Entity.latestValue ecall) r)
  | settleF (e : Entity) : ReachableGood e → ReachableGood (settleFailure e)

/-- A truthy value is not null. -/
theorem truthy_ne_null {v : JSVal} (h : v.truthy = true) : v ≠ JSVal.null := by
  intro hv; subst hv; simp [JSVal.truthy] at h

/-- A non-void value is not null. -/
theorem isNonVoid_ne_null {v : JSVal} (h : isNonVoid v = true) : v ≠ JSVal.null := by
  intro hv; subst hv; simp [isNonVoid] at h

/-- The strengthened inductive invariant for C6: draft and saved are not both
null, and the draft is either null or truthy. -/
theorem reachableGood_invariant {e : Entity} (h : ReachableGood e) :
    ¬(e.draft = JSVal.null ∧ e.saved = JSVal.null) ∧
      (e.draft = JSVal.null ∨ e.draft.truthy = true) := by
  induction h with
  | createU v hv =>
      exact ⟨fun hc => truthy_ne_null hv hc.1, Or.inr hv⟩
  | createS v hv =>
      exact ⟨fun hc => hv hc.2, Or.inl rfl⟩
  | revalidate validator e _ ih => exact ih
  | upd validator e v _ hv ih =>
      exact ⟨fun hc => truthy_ne_null hv hc.1, Or.inr hv⟩
  | updSaved e v _ hv ih => exact ⟨fun hc => hv hc.2, ih.2⟩
  | setSav e b _ ih => exact ih
  | saveStart e _ ih => exact ih
  | settleS validator ecall e r hc _ ihc ih =>
      refine ⟨fun hboth => ?_, Or.inl rfl⟩
      have hsaved := hboth.2
      simp only [settleSuccess] at hsaved
      by_cases hr : isNonVoid r = true
      · rw [if_pos hr] at hsaved
        exact isNonVoid_ne_null hr hsaved
      · rw [if_neg hr] at hsaved
        rcases ihc.2 with hnull | htr
        · have : Entity.latestValue ecall = ecall.saved := by
            simp [Entity.latestValue, hnull, JSVal.truthy]
          rw [this] at hsaved
          exact ihc.1 ⟨hnull, hsaved⟩
        · have : Entity.latestValue ecall = ecall.draft := by
            simp [Entity.latestValue, htr]
          rw [this] at hsaved
          exact truthy_ne_null htr hsaved
  | settleF e _ ih => exact ih

/-- Claim C6 as amended: the mode invariant — draft and saved are never both
null — holds for every entity state the controller can reach, provided every
draft value supplied is truthy and every saved value supplied is non-null
(the JS `||` in `latestValue` makes a falsy non-null draft behave as absent,
which is what the counterexample exploits; truthiness of drafts restores the
invariant). -/
theorem c6_mode_invariant_amended {e : Entity} (h : ReachableGood e) :
    ¬(e.draft = JSVal.null ∧ e.saved = JSVal.null) :=
  (reachableGood_invariant h).1

/-- Witness for the amended claim C6, at the concrete reachable state obtained
by updating a fresh unsaved entity. -/
theorem c6_mode_invariant_witness :
    ¬((update (fun _ => []) (Entity.createUnsaved draftA1) savedA0).draft
          = JSVal.null ∧
        (update (fun _ => []) (Entity.createUnsaved draftA1) savedA0).saved
          = JSVal.null) :=
  c6_mode_invariant_amended
    (ReachableGood.upd _ _ _ (ReachableGood.createU _ rfl) rfl)

/-- A lodash `toPath`/`createPart` path part: a `string | number`.  Indices
are the nonnegative integers JS uses as array indices. -/
inductive JSPart : Type where
  | num (n : Nat) : JSPart
  | str (s : List Char) : JSPart
deriving DecidableEq

/-- The character for the decimal digit `d` (`d < 10`). -/
def digitChar (d : Nat) : Char := Char.ofNat (48 + d)

/-- Fuel-driven decimal rendering (the fuel makes the definition structurally
recursive, so that it reduces in the kernel; `decRepr` supplies enough). -/
def decAux : Nat → Nat → List Char
  | 0, _ => []
  | fuel + 1, n =>
      if n < 10 then [digitChar n]
      else decAux fuel (n / 10) ++ [digitChar (n % 10)]

/-- Decimal rendering of a nonnegative integer, as JS `${n}` produces. -/
def decRepr (n : Nat) : List Char := decAux (n + 1) n

/-- lodash `trimEnd(s, '.')`: removes every trailing `'.'` character.  (A
character is kept iff something after it survives or it is not a dot.) -/
def trimEndDots : List Char → List Char
  | [] => []
  | c :: t => if trimEndDots t = [] ∧ c = '.' then [] else c :: trimEndDots t

namespace ObjectPath

/-- objectPath.ts `EMPTY`. -/
def EMPTY : ObjectPath := []

/-- objectPath.ts `createPart`: the empty string becomes the empty path; a
number, or a string matching `/^\d+$/`, becomes an index part `[n]`; any
other string becomes a field part with a trailing delimiter. -/
def createPart : JSPart → ObjectPath
  | .num n => '[' :: (decRepr n ++ [']'])
  | .str s =>
      if s = [] then EMPTY
      else if s.all Char.isDigit then '[' :: (s ++ [']'])
      else s ++ ['.']

/-- objectPath.ts `concat`: an empty side is returned unchanged; otherwise
the delimiter between the two parts is dropped, inserted or left alone
depending on whether the left path ends on the delimiter and whether the
right path starts with an index bracket. -/
def concat (left right : ObjectPath) : ObjectPath :=
  if left = [] then right
  else if right = [] then left
  else
    let endsOnDelimiter := left.getLast? == some '.'
    let needsLeadingDelimiter := right.head? != some '['
    if endsOnDelimiter && !needsLeadingDelimiter then left.dropLast ++ right
    else if needsLeadingDelimiter && !endsOnDelimiter then left ++ '.' :: right
    else left ++ right

/-- objectPath.ts `extend`. -/
def extend (path : ObjectPath) (andPart : JSPart) : ObjectPath :=
  concat path (createPart andPart)

/-- objectPath.ts `create`: reduces `extend` over the parts starting from the
empty path. -/
def create (parts : List JSPart) : ObjectPath :=
  parts.foldl extend EMPTY

/-- objectPath.ts `fromArray`. -/
def fromArray (parts : List JSPart) : ObjectPath := create parts

/-- objectPath.ts `startsWith`.  JS `path.charAt(i)` yields the empty string
(never `undefined`) when `i` is out of range, so the `undefined` entry of
`ACCEPTABLE_SUFFIXES` can never match the returned character: end of string
is rejected, and only `'.'` and `'['` are acceptable suffix characters. -/
def startsWith (path prefixVal : ObjectPath) : Bool :=
  if prefixVal = EMPTY then true
  else if prefixVal.getLast? = some '.' then
    let trimmedPath := trimEndDots prefixVal
    if !(trimmedPath.isPrefixOf path) then false
    else
      match path[trimmedPath.length]? with
      | some '.' => true
      | some '[' => true
      | _ => false
  else prefixVal.isPrefixOf path

/-- objectPath.ts `toString`: lodash `trimEnd(path, DELIMITER)`. -/
def toString (path : ObjectPath) : List Char := trimEndDots path

end ObjectPath

/-- Claim C10: extending any path with the empty-string part is a no-op,
because `createPart` encodes the empty part as the empty path and `concat`
returns the other side unchanged when one side is empty; consequently
`create` of no parts, and of the single empty-string part, both yield the
empty path. -/
theorem c10_extend_empty :
    (∀ p : ObjectPath, ObjectPath.extend p (JSPart.str []) = p) ∧
      ObjectPath.create [] = ObjectPath.EMPTY ∧
      ObjectPath.create [JSPart.str []] = ObjectPath.EMPTY := by
  refine ⟨fun p => ?_, rfl, rfl⟩
  show ObjectPath.concat p (ObjectPath.createPart (JSPart.str [])) = p
  by_cases hp : p = []
  · subst hp; rfl
  · simp only [ObjectPath.concat, ObjectPath.createPart, ObjectPath.EMPTY]
    rw [if_neg hp]
    simp

/-- Claim C7: `startsWith` accepts every path when the prefix is empty; when
the prefix ends with the field delimiter, a match implies that the path
starts with the delimiter-trimmed prefix and continues, immediately after
it, with end of string, the delimiter, or an index bracket; and the
delimiter-terminated prefix `"field."` does not match `"fieldOther.x."`,
whose next segment merely shares the textual prefix `field`. -/
theorem c7_startsWith :
    (∀ p : ObjectPath, ObjectPath.startsWith p ObjectPath.EMPTY = true) ∧
      (∀ p q : ObjectPath, q.getLast? = some '.' →
        ObjectPath.startsWith p q = true →
        (trimEndDots q).isPrefixOf p = true ∧
          (p[(trimEndDots q).length]? = none ∨
            p[(trimEndDots q).length]? = some '.' ∨
            p[(trimEndDots q).length]? = some '[')) ∧
      ObjectPath.startsWith "fieldOther.x.".toList "field.".toList = false := by
  refine ⟨fun p => rfl, fun p q hlast h => ?_, by decide⟩
  have hq : q ≠ ObjectPath.EMPTY := by
    intro he; rw [he] at hlast; simp [ObjectPath.EMPTY] at hlast
  rw [ObjectPath.startsWith, if_neg hq, if_pos hlast] at h
  simp only [] at h
  by_cases hpre : (trimEndDots q).isPrefixOf p = true
  · refine ⟨hpre, ?_⟩
    rw [hpre] at h
    simp only [Bool.not_true, Bool.false_eq_true, if_false] at h
    split at h
    next heq => exact Or.inr (Or.inl heq)
    next heq => exact Or.inr (Or.inr heq)
    next => exact absurd h (by simp)
  · rw [Bool.not_eq_true] at hpre
    rw [hpre] at h
    exact absurd h (by simp)

/-- Witness for claim C7 at the prefix `"fields."` and the path
`"fields[1]."`: the prefix ends with the delimiter, the match succeeds, the
path starts with the trimmed prefix `"fields"`, and the character after it
is the index bracket. -/
theorem c7_startsWith_witness :
    "fields.".toList.getLast? = some '.' ∧
      ObjectPath.startsWith "fields[1].".toList "fields.".toList = true ∧
      ((trimEndDots "fields.".toList).isPrefixOf "fields[1].".toList = true ∧
        ("fields[1].".toList[(trimEndDots "fields.".toList).length]? = none ∨
          "fields[1].".toList[(trimEndDots "fields.".toList).length]? = some '.' ∨
          "fields[1].".toList[(trimEndDots "fields.".toList).length]? = some '[')) :=
  ⟨by decide, by decide,
    c7_startsWith.2.1 "fields[1].".toList "fields.".toList (by decide) (by decide)⟩

/-- Removes one trailing delimiter if present: the left-side normalization
`concat` effectively performs (the proofs below phrase `concat` through it). -/
def trimOneDot (l : List Char) : List Char :=
  if l.getLast? = some '.' then l.dropLast else l

/-- The separator `concat` effectively places before its right operand: none
before an index bracket, the delimiter otherwise. -/
def sepFor (r : List Char) : List Char :=
  if r.head? = some '[' then [] else ['.']

/-- `concat` on the empty left path. -/
theorem concat_nil_left (r : ObjectPath) : ObjectPath.concat [] r = r := by
  simp [ObjectPath.concat]

/-- `concat` on the empty right path. -/
theorem concat_nil_right (l : ObjectPath) : ObjectPath.concat l [] = l := by
  by_cases h : l = [] <;> simp [ObjectPath.concat, h]

/-- Normal form of `concat` on two nonempty paths: drop one trailing
delimiter from the left side, then join with the separator the right side
needs. -/
theorem concat_normal {l r : ObjectPath} (hl : l ≠ []) (hr : r ≠ []) :
    ObjectPath.concat l r = trimOneDot l ++ (sepFor r ++ r) := by
  rw [ObjectPath.concat, if_neg hl, if_neg hr]
  simp only []
  by_cases hd : l.getLast? = some '.'
  · by_cases hb : r.head? = some '['
    · rw [trimOneDot, sepFor, if_pos hd, if_pos hb]
      simp [hd, hb]
    · have hl2 : l.dropLast ++ ['.'] = l :=
        List.dropLast_append_getLast? '.' (Option.mem_def.mpr hd)
      rw [trimOneDot, sepFor, if_pos hd, if_neg hb]
      have c1 : ((l.getLast? == some '.') && !(r.head? != some '[')) = false := by
        simp [hd, hb]
      have c2 : ((r.head? != some '[') && !(l.getLast? == some '.')) = false := by
        simp [hd, hb]
      rw [c1, c2]
      simp only [Bool.false_eq_true, if_false]
      calc l ++ r = (l.dropLast ++ ['.']) ++ r := by rw [hl2]
        _ = l.dropLast ++ (['.'] ++ r) := by rw [List.append_assoc]
  · by_cases hb : r.head? = some '['
    · rw [trimOneDot, sepFor, if_neg hd, if_pos hb]
      have c1 : ((l.getLast? == some '.') && !(r.head? != some '[')) = false := by
        simp [hd, hb]
      have c2 : ((r.head? != some '[') && !(l.getLast? == some '.')) = false := by
        simp [hd, hb]
      rw [c1, c2]
      simp
    · rw [trimOneDot, sepFor, if_neg hd, if_neg hb]
      simp [hd, hb]

/-- The paths constructible through the objectPath.ts API: the empty path,
single parts, and concatenations of constructible paths (`create`, `extend`,
`prefix` and `fromArray` all reduce to these). -/
inductive Constructed : ObjectPath → Prop where
  | empty : Constructed []
  | part (p : JSPart) : Constructed (ObjectPath.createPart p)
  | cat {a b : ObjectPath} : Constructed a → Constructed b →
      Constructed (ObjectPath.concat a b)

/-- Decimal renderings are never empty. -/
theorem decRepr_ne_nil (n : Nat) : decRepr n ≠ [] := by
  rw [decRepr, decAux]
  split <;> simp

/-- A constructible path is empty or has at least two characters (parts
render as `[n]` or as a name plus its trailing delimiter; concatenation
preserves this). -/
theorem constructed_two_le {s : ObjectPath} (h : Constructed s) :
    s = [] ∨ 2 ≤ s.length := by
  induction h with
  | empty => exact Or.inl rfl
  | part p =>
      cases p with
      | num n =>
          right
          have := decRepr_ne_nil n
          simp only [ObjectPath.createPart, List.length_cons, List.length_append,
            List.length_singleton]
          have : 1 ≤ (decRepr n).length := List.length_pos.mpr this
          omega
      | str s =>
          by_cases h0 : s = []
          · left; simp [ObjectPath.createPart, h0, ObjectPath.EMPTY]
          · right
            have h1 : 1 ≤ s.length := List.length_pos.mpr h0
            by_cases hdig : s.all Char.isDigit
            · simp only [ObjectPath.createPart, if_neg h0, if_pos hdig,
                List.length_cons, List.length_append, List.length_singleton]
              omega
            · simp only [ObjectPath.createPart, if_neg h0, if_neg hdig,
                List.length_append, List.length_singleton]
              omega
  | cat ha hb iha ihb =>
      rename_i a b
      by_cases hA : a = []
      · rw [hA, concat_nil_left]; exact ihb
      · by_cases hB : b = []
        · rw [hB, concat_nil_right]; exact iha
        · right
          rw [concat_normal hA hB]
          have h2 : 2 ≤ b.length := ihb.resolve_left hB
          simp only [List.length_append]
          omega

/-- `trimOneDot` distributes to the right component of an append when that
component is nonempty (the last character comes from it). -/
theorem trimOneDot_append (X : List Char) {b : List Char} (hb : b ≠ []) :
    trimOneDot (X ++ b) = X ++ trimOneDot b := by
  obtain ⟨c, t, rfl⟩ : ∃ c t, b = c :: t := by
    cases b with
    | nil => exact absurd rfl hb
    | cons c t => exact ⟨c, t, rfl⟩
  rw [trimOneDot, trimOneDot, List.getLast?_append_of_ne_nil _ hb]
  split
  · rw [List.dropLast_append_cons]
  · rfl

/-- Trimming one trailing delimiter from a path of length at least two leaves
it nonempty. -/
theorem trimOneDot_ne_nil {b : List Char} (h2 : 2 ≤ b.length) :
    trimOneDot b ≠ [] := by
  obtain ⟨x, y, t, rfl⟩ : ∃ x y t, b = x :: y :: t := by
    match b, h2 with
    | x :: y :: t, _ => exact ⟨x, y, t, rfl⟩
  rw [trimOneDot]
  split
  · rw [List.dropLast_cons₂]; simp
  · simp

/-- Trimming one trailing delimiter from a path of length at least two keeps
its first character. -/
theorem head?_trimOneDot {b : List Char} (h2 : 2 ≤ b.length) :
    (trimOneDot b).head? = b.head? := by
  obtain ⟨x, y, t, rfl⟩ : ∃ x y t, b = x :: y :: t := by
    match b, h2 with
    | x :: y :: t, _ => exact ⟨x, y, t, rfl⟩
  rw [trimOneDot]
  split
  · rw [List.dropLast_cons₂]; simp
  · rfl

/-- The separator demanded by an appended path is decided by its (nonempty)
left component. -/
theorem sepFor_append_left {b : List Char} (Y : List Char) (hb : b ≠ []) :
    sepFor (b ++ Y) = sepFor b := by
  rw [sepFor, sepFor, List.head?_append_of_ne_nil _ hb]

/-- The separator demanded by a path of length at least two is unaffected by
trimming one trailing delimiter. -/
theorem sepFor_trimOneDot {b : List Char} (h2 : 2 ≤ b.length) :
    sepFor (trimOneDot b) = sepFor b := by
  rw [sepFor, sepFor, head?_trimOneDot h2]

/-- Associativity of `concat` on constructible paths (the content of claim
C8; shared with the round-trip development). -/
theorem concat_assoc_constructed {a b c : ObjectPath}
    (ha : Constructed a) (hb : Constructed b) (hc : Constructed c) :
    ObjectPath.concat (ObjectPath.concat a b) c
      = ObjectPath.concat a (ObjectPath.concat b c) := by
  by_cases hA : a = []
  · rw [hA, concat_nil_left, concat_nil_left]
  by_cases hB : b = []
  · rw [hB, concat_nil_right, concat_nil_left]
  by_cases hC : c = []
  · rw [hC, concat_nil_right, concat_nil_right]
  have h2b : 2 ≤ b.length := (constructed_two_le hb).resolve_left hB
  have htb : trimOneDot b ≠ [] := trimOneDot_ne_nil h2b
  rw [concat_normal hA hB, concat_normal hB hC]
  rw [concat_normal (by simp [hB] : trimOneDot a ++ (sepFor b ++ b) ≠ []) hC]
  rw [concat_normal hA (by simp [hC] : trimOneDot b ++ (sepFor c ++ c) ≠ [])]
  rw [show trimOneDot a ++ (sepFor b ++ b) = (trimOneDot a ++ sepFor b) ++ b by
    simp [List.append_assoc]]
  rw [trimOneDot_append _ hB]
  rw [sepFor_append_left _ htb, sepFor_trimOneDot h2b]
  simp [List.append_assoc]

/-- Claim C8: `concat` is associative over arbitrary constructed paths, and
the empty path is a two-sided identity element for `concat` (the latter over
all paths). -/
theorem c8_concat_assoc_identity :
    (∀ a b c : ObjectPath, Constructed a → Constructed b → Constructed c →
      ObjectPath.concat (ObjectPath.concat a b) c
        = ObjectPath.concat a (ObjectPath.concat b c)) ∧
      ∀ a : ObjectPath, ObjectPath.concat ObjectPath.EMPTY a = a ∧
        ObjectPath.concat a ObjectPath.EMPTY = a :=
  ⟨fun _ _ _ ha hb hc => concat_assoc_constructed ha hb hc,
    fun a => ⟨concat_nil_left a, concat_nil_right a⟩⟩

/-- Witness for claim C8 at the constructed paths for the parts `"a"`, `1`
and `"x"`. -/
theorem c8_concat_assoc_witness :
    ObjectPath.concat
        (ObjectPath.concat (ObjectPath.createPart (JSPart.str ['a']))
          (ObjectPath.createPart (JSPart.num 1)))
        (ObjectPath.createPart (JSPart.str ['x']))
      = ObjectPath.concat (ObjectPath.createPart (JSPart.str ['a']))
          (ObjectPath.concat (ObjectPath.createPart (JSPart.num 1))
            (ObjectPath.createPart (JSPart.str ['x']))) :=
  c8_concat_assoc_identity.1 _ _ _ (Constructed.part _) (Constructed.part _)
    (Constructed.part _)

/-- lodash `sortBy` with a single iteratee, specialised to natural-number
keys.  lodash documents `sortBy` as a stable sort; embedded as insertion
sort, which is stable. -/
def insertSorted {α : Type} (key : α → Nat) (x : α) : List α → List α
  | [] => [x]
  | y :: ys => if key x ≤ key y then x :: y :: ys else y :: insertSorted key x ys

/-- lodash `sortBy` (stable). -/
def sortBy {α : Type} (key : α → Nat) (l : List α) : List α :=
  l.foldr (insertSorted key) []

/-- The iteratee `d => d.severity` of diagnostic.ts `maxSeverity`: enum
members are their ordinal numbers in JS, so sorting by the severity value is
sorting by its ordinal. -/
def severityKey (d : Diagnostic) : Nat := d.severity.ordinal

/-- diagnostic.ts `maxSeverity`: `null` for an absent or empty list,
otherwise the `severity` field of the first element of the list sorted by
severity (`sortBy(diagnostics, d => d.severity)[0].severity`). -/
def maxSeverity (diagnostics : Option (List Diagnostic)) : Option Severity :=
  match diagnostics with
  | none => none
  | some l =>
      if l.isEmpty then none
      else (sortBy severityKey l).head?.map Diagnostic.severity

/-- The more severe of two severities (used only to state what `maxSeverity`
computes). -/
def sevMin (a b : Severity) : Severity :=
  if a.ordinal ≤ b.ordinal then a else b

/-- `sevMin` is commutative. -/
theorem sevMin_comm : ∀ a b : Severity, sevMin a b = sevMin b a := by
  intro a b; cases a <;> cases b <;> rfl

/-- `sevMin` is associative. -/
theorem sevMin_assoc : ∀ a b c : Severity,
    sevMin (sevMin a b) c = sevMin a (sevMin b c) := by
  intro a b c; cases a <;> cases b <;> cases c <;> rfl

/-- Pulling an element through a `sevMin` fold. -/
theorem foldl_sevMin_pull (a b : Severity) (l : List Severity) :
    sevMin a (l.foldl sevMin b) = l.foldl sevMin (sevMin a b) := by
  induction l generalizing b with
  | nil => rfl
  | cons c t ih =>
      simp only [List.foldl_cons]
      rw [ih (sevMin b c), ← sevMin_assoc]

/-- The head of the severity-sorted list carries the most severe severity of
the input (earliest on ties, though ties share the severity value anyway). -/
theorem sortBy_cons_head (d : Diagnostic) (ds : List Diagnostic) :
    ∃ h t, sortBy severityKey (d :: ds) = h :: t ∧
      h.severity = (ds.map Diagnostic.severity).foldl sevMin d.severity := by
  induction ds generalizing d with
  | nil => exact ⟨d, [], rfl, rfl⟩
  | cons e es ih =>
      obtain ⟨h, t, hS, hsev⟩ := ih e
      rw [show sortBy severityKey (d :: e :: es)
            = insertSorted severityKey d (sortBy severityKey (e :: es)) from rfl,
        hS, insertSorted]
      have hfold : ((e :: es).map Diagnostic.severity).foldl sevMin d.severity
          = sevMin d.severity h.severity := by
        rw [List.map_cons, List.foldl_cons, ← foldl_sevMin_pull, ← hsev]
      by_cases hle : severityKey d ≤ severityKey h
      · rw [if_pos hle]
        refine ⟨d, h :: t, rfl, ?_⟩
        have hle2 : d.severity.ordinal ≤ h.severity.ordinal := hle
        rw [hfold, sevMin, if_pos hle2]
      · rw [if_neg hle]
        refine ⟨h, insertSorted severityKey d t, rfl, ?_⟩
        have hle2 : ¬d.severity.ordinal ≤ h.severity.ordinal := hle
        rw [hfold, sevMin, if_neg hle2]

/-- `maxSeverity` on a nonempty list computes the most severe severity. -/
theorem maxSeverity_cons (d : Diagnostic) (ds : List Diagnostic) :
    maxSeverity (some (d :: ds))
      = some ((ds.map Diagnostic.severity).foldl sevMin d.severity) := by
  obtain ⟨h, t, hS, hsev⟩ := sortBy_cons_head d ds
  rw [maxSeverity]
  simp [hS, hsev]

/-- A Warning diagnostic used in the C5 instances. -/
def warnDiag : Diagnostic :=
  Diagnostic.mk "too long" "maxLength" Severity.Warning [] none

/-- An Error diagnostic used in the C5 instances. -/
def errDiag : Diagnostic :=
  Diagnostic.mk "required" "required" Severity.Error [] none

/-- A second, different Error diagnostic used in the C5 counterexample. -/
def errDiag2 : Diagnostic :=
  Diagnostic.mk "missing" "required" Severity.Error [] none

/-- Counterexample to claim C5: the claim says `maxSeverity` "returns the
diagnostic with the numerically lowest severity ordinal … it returns the
Error entry".  The code returns `sortBy(...)[0].severity` — only the
severity value, not the diagnostic: two lists whose Error entries are
different diagnostics produce identical results (both `Severity.Error`), so
the result cannot be the most-severe entry itself. -/
theorem c5_maxSeverity_cex :
    maxSeverity (some [warnDiag, errDiag])
        = maxSeverity (some [warnDiag, errDiag2]) ∧
      errDiag ≠ errDiag2 ∧
      maxSeverity (some [warnDiag, errDiag]) = some Severity.Error := by
  refine ⟨rfl, ?_, rfl⟩
  intro h
  injection h with h1 h2 h3 h4 h5
  exact absurd h1 (by decide)

/-- Claim C5 as amended: `maxSeverity` of an absent or empty list is null;
of a nonempty list it is the severity (not the diagnostic) with the
numerically lowest ordinal among the list — the severity of the first
element of a stable sort by severity; on a list with one Error and one
Warning it returns `Severity.Error`. -/
theorem c5_maxSeverity_amended :
    maxSeverity none = none ∧ maxSeverity (some []) = none ∧
      (∀ (d : Diagnostic) (ds : List Diagnostic),
        maxSeverity (some (d :: ds))
          = some ((ds.map Diagnostic.severity).foldl sevMin d.severity)) ∧
      maxSeverity (some [warnDiag, errDiag]) = some Severity.Error :=
  ⟨rfl, rfl, maxSeverity_cons, rfl⟩

/-- A character lodash's `toPath` treats as part of a plain field-name run:
anything but the delimiter and the index brackets (the character class
complement in its name-matching pattern). -/
def nameChar (c : Char) : Bool := !(c == '.' || c == '[' || c == ']')

/-- Modelled from the spec: lodash `toPath` (an external dependency of
objectPath.ts), on the dot/bracket grammar this library produces — "parses
the trimmed string form back into discrete segments".  Fuel-driven so the
definition is structurally recursive and reduces in the kernel; each step
consumes at least one character, so fuel exceeding the length suffices.  A
delimiter is skipped, a `[` opens an index segment read up to the matching
`]`, and any other character opens a field-name run. -/
def parseSegsF : Nat → List Char → List (List Char)
  | 0, _ => []
  | _ + 1, [] => []
  | fuel + 1, '.' :: r => parseSegsF fuel r
  | fuel + 1, '[' :: r =>
      (r.takeWhile (· != ']')) :: parseSegsF fuel ((r.dropWhile (· != ']')).drop 1)
  | fuel + 1, c :: r =>
      (c :: r.takeWhile nameChar) :: parseSegsF fuel (r.dropWhile nameChar)

/-- Dropping a prefix never lengthens a list. -/
theorem length_dropWhile_le {α : Type} (p : α → Bool) (l : List α) :
    (l.dropWhile p).length ≤ l.length := by
  induction l with
  | nil => simp
  | cons c t ih =>
      rw [List.dropWhile_cons]
      split
      · exact le_trans ih (by simp)
      · exact le_refl _

/-- The parser result does not depend on the fuel once the fuel exceeds the
input length. -/
theorem parseSegsF_congr : ∀ (f g : Nat) (l : List Char), l.length < f →
    l.length < g → parseSegsF f l = parseSegsF g l := by
  intro f
  induction f with
  | zero => intro g l hf hg; exact absurd hf (by omega)
  | succ f ih =>
      intro g l hf hg
      match g, hg with
      | g + 1, hg =>
        match l with
        | [] => rfl
        | '.' :: r =>
            show parseSegsF f r = parseSegsF g r
            exact ih g r (by simp at hf; omega) (by simp at hg; omega)
        | '[' :: r =>
            show (r.takeWhile (· != ']'))
                  :: parseSegsF f ((r.dropWhile (· != ']')).drop 1)
              = (r.takeWhile (· != ']'))
                  :: parseSegsF g ((r.dropWhile (· != ']')).drop 1)
            have hlen : ((r.dropWhile (· != ']')).drop 1).length ≤ r.length := by
              have h1 := length_dropWhile_le (· != ']') r
              have h2 := List.length_drop 1 (r.dropWhile (· != ']'))
              omega
            simp only [List.length_cons] at hf hg
            rw [ih g _ (by omega) (by omega)]
        | c :: r =>
            by_cases h1 : c = '.'
            · subst h1
              show parseSegsF f r = parseSegsF g r
              exact ih g r (by simp at hf; omega) (by simp at hg; omega)
            · by_cases h2 : c = '['
              · subst h2
                have hlen : ((r.dropWhile (· != ']')).drop 1).length ≤ r.length := by
                  have hh1 := length_dropWhile_le (· != ']') r
                  have hh2 := List.length_drop 1 (r.dropWhile (· != ']'))
                  omega
                show (r.takeWhile (· != ']'))
                      :: parseSegsF f ((r.dropWhile (· != ']')).drop 1)
                  = (r.takeWhile (· != ']'))
                      :: parseSegsF g ((r.dropWhile (· != ']')).drop 1)
                simp only [List.length_cons] at hf hg
                rw [ih g _ (by omega) (by omega)]
              · have hlen : (r.dropWhile nameChar).length ≤ r.length :=
                  length_dropWhile_le nameChar r
                simp only [List.length_cons] at hf hg
                rw [parseSegsF, parseSegsF]
                rw [ih g _ (by omega) (by omega)]
                exact h1
                exact h2
                exact h1
                exact h2

/-- lodash `toPath` with its fuel supplied. -/
def parseSegs (l : List Char) : List (List Char) :=
  parseSegsF (l.length + 1) l

/-- objectPath.ts `toArray`: lodash `toPath` applied to the `toString` form.
lodash returns every segment as a string — index segments come back as digit
strings — although the source annotates the result as `(string|number)[]`. -/
def ObjectPath.toArray (path : ObjectPath) : List (List Char) :=
  parseSegs (ObjectPath.toString path)

/-- Parsing skips a leading delimiter. -/
theorem parseSegs_dot (r : List Char) : parseSegs ('.' :: r) = parseSegs r :=
  parseSegsF_congr _ _ r (by simp) (by omega)

/-- Parsing a leading index bracket takes everything up to the closing
bracket as one segment. -/
theorem parseSegs_bracket (r : List Char) :
    parseSegs ('[' :: r)
      = (r.takeWhile (· != ']')) :: parseSegs ((r.dropWhile (· != ']')).drop 1) := by
  show (r.takeWhile (· != ']')) :: parseSegsF (r.length + 1) ((r.dropWhile (· != ']')).drop 1)
    = (r.takeWhile (· != ']'))
        :: parseSegsF (((r.dropWhile (· != ']')).drop 1).length + 1)
          ((r.dropWhile (· != ']')).drop 1)
  have hlen : ((r.dropWhile (· != ']')).drop 1).length ≤ r.length := by
    have h1 := length_dropWhile_le (· != ']') r
    have h2 := List.length_drop 1 (r.dropWhile (· != ']'))
    omega
  rw [parseSegsF_congr (r.length + 1) (((r.dropWhile (· != ']')).drop 1).length + 1)
    ((r.dropWhile (· != ']')).drop 1) (by omega) (by omega)]

/-- Parsing a leading name character takes the whole name run as one
segment. -/
theorem parseSegs_name {c : Char} (r : List Char) (h1 : c ≠ '.') (h2 : c ≠ '[') :
    parseSegs (c :: r)
      = (c :: r.takeWhile nameChar) :: parseSegs (r.dropWhile nameChar) := by
  rw [parseSegs, parseSegs, parseSegsF]
  · have hlen : (r.dropWhile nameChar).length ≤ r.length :=
      length_dropWhile_le nameChar r
    simp only [List.length_cons]
    rw [parseSegsF_congr (r.length + 1) ((r.dropWhile nameChar).length + 1)
      (r.dropWhile nameChar) (by omega) (by omega)]
  · exact h1
  · exact h2

/-- A well-formed field-name string: nonempty and free of the delimiter and
bracket characters (the segments the library's own path grammar produces). -/
def WfName (s : List Char) : Prop := s ≠ [] ∧ ∀ c ∈ s, nameChar c = true

/-- A well-formed path part: any index, or a well-formed name string (an
all-digit string is also fine: it renders as an index part whose content is
its digits). -/
def WfPart : JSPart → Prop
  | .num _ => True
  | .str s => WfName s

instance : DecidablePred WfPart := fun p =>
  match p with
  | .num _ => isTrue trivial
  | .str s => inferInstanceAs (Decidable (s ≠ [] ∧ ∀ c ∈ s, nameChar c = true))

/-- The string lodash `toPath` hands back for a part: indices come back as
their decimal digit strings, name strings come back unchanged. -/
def canonSeg : JSPart → List Char
  | .num n => decRepr n
  | .str s => s

/-- Whether `createPart` renders the part as an index `[…]` block. -/
def bracketKind : JSPart → Bool
  | .num _ => true
  | .str s => s.all Char.isDigit

/-- `digitChar` of a digit is a digit character. -/
theorem digitChar_isDigit {d : Nat} (hd : d < 10) : (digitChar d).isDigit = true := by
  interval_cases d <;> decide

/-- Every character of a decimal rendering is a digit. -/
theorem decAux_digits : ∀ (fuel n : Nat), ∀ c ∈ decAux fuel n, c.isDigit = true := by
  intro fuel
  induction fuel with
  | zero => intro n c hc; simp [decAux] at hc
  | succ fuel ih =>
      intro n c hc
      by_cases h10 : n < 10
      · rw [decAux, if_pos h10] at hc
        simp only [List.mem_singleton] at hc
        subst hc
        exact digitChar_isDigit h10
      · rw [decAux, if_neg h10] at hc
        rcases List.mem_append.mp hc with h | h
        · exact ih _ _ h
        · simp only [List.mem_singleton] at h
          subst h
          exact digitChar_isDigit (Nat.mod_lt _ (by omega))

/-- Every character of `decRepr n` is a digit. -/
theorem decRepr_digits {n : Nat} {c : Char} (hc : c ∈ decRepr n) :
    c.isDigit = true :=
  decAux_digits _ _ _ hc

/-- Digit characters are plain name characters. -/
theorem nameChar_of_isDigit {c : Char} (h : c.isDigit = true) :
    nameChar c = true := by
  by_cases h1 : c = '.'
  · subst h1; exact absurd h (by decide)
  by_cases h2 : c = '['
  · subst h2; exact absurd h (by decide)
  by_cases h3 : c = ']'
  · subst h3; exact absurd h (by decide)
  simp [nameChar, h1, h2, h3]

/-- What being a name character means. -/
theorem nameChar_spec {c : Char} (h : nameChar c = true) :
    c ≠ '.' ∧ c ≠ '[' ∧ c ≠ ']' := by
  refine ⟨?_, ?_, ?_⟩ <;> intro he <;> subst he <;> exact absurd h (by decide)

/-- The part content handed back by the parser is nonempty and made of name
characters, for well-formed parts. -/
theorem canonSeg_wf {p : JSPart} (hp : WfPart p) :
    canonSeg p ≠ [] ∧ ∀ c ∈ canonSeg p, nameChar c = true := by
  cases p with
  | num n =>
      exact ⟨decRepr_ne_nil n, fun c hc => nameChar_of_isDigit (decRepr_digits hc)⟩
  | str s => exact hp

/-- Shape of `createPart` on index-rendered parts. -/
theorem createPart_bracket {p : JSPart} (hp : WfPart p) (hb : bracketKind p = true) :
    ObjectPath.createPart p = '[' :: (canonSeg p ++ [']']) := by
  cases p with
  | num n => rfl
  | str s =>
      have hb2 : s.all Char.isDigit = true := hb
      rw [ObjectPath.createPart, if_neg hp.1, if_pos hb2]
      rfl

/-- Shape of `createPart` on name-rendered parts. -/
theorem createPart_name {p : JSPart} (hp : WfPart p) (hb : bracketKind p = false) :
    ObjectPath.createPart p = canonSeg p ++ ['.'] := by
  cases p with
  | num n => exact absurd hb (by simp [bracketKind])
  | str s =>
      have hb2 : s.all Char.isDigit = false := hb
      rw [ObjectPath.createPart, if_neg hp.1, if_neg]
      · rfl
      · simp [hb2]

/-- `createPart` of a well-formed part is nonempty. -/
theorem createPart_ne_nil {p : JSPart} (hp : WfPart p) :
    ObjectPath.createPart p ≠ [] := by
  by_cases hb : bracketKind p = true
  · rw [createPart_bracket hp hb]; simp
  · rw [createPart_name hp (by simpa using hb)]; simp

/-- `createPart` of a well-formed part has at least two characters. -/
theorem createPart_two_le {p : JSPart} (hp : WfPart p) :
    2 ≤ (ObjectPath.createPart p).length :=
  (constructed_two_le (Constructed.part p)).resolve_left (createPart_ne_nil hp)

/-- The right-associated rendering of a part list (`create` folds from the
left; associativity of `concat` bridges the two). -/
def renderParts : List JSPart → ObjectPath
  | [] => []
  | p :: ps => ObjectPath.concat (ObjectPath.createPart p) (renderParts ps)

/-- Renderings are constructible paths. -/
theorem renderParts_constructed (ps : List JSPart) : Constructed (renderParts ps) := by
  induction ps with
  | nil => exact Constructed.empty
  | cons p ps ih => exact Constructed.cat (Constructed.part p) ih

/-- Folding `extend` from any constructible accumulator appends the
rendering. -/
theorem foldl_extend_eq (ps : List JSPart) : ∀ acc : ObjectPath, Constructed acc →
    List.foldl ObjectPath.extend acc ps = ObjectPath.concat acc (renderParts ps) := by
  induction ps with
  | nil => intro acc hacc; rw [List.foldl_nil, renderParts, concat_nil_right]
  | cons p ps ih =>
      intro acc hacc
      rw [List.foldl_cons,
        ih (ObjectPath.extend acc p) (Constructed.cat hacc (Constructed.part p)),
        ObjectPath.extend,
        concat_assoc_constructed hacc (Constructed.part p) (renderParts_constructed ps)]
      rfl

/-- `create` computes the right-associated rendering. -/
theorem create_eq_render (ps : List JSPart) :
    ObjectPath.create ps = renderParts ps := by
  rw [ObjectPath.create, foldl_extend_eq ps ObjectPath.EMPTY Constructed.empty]
  exact concat_nil_left _

/-- The rendering of a nonempty part list is nonempty. -/
theorem renderParts_cons_ne_nil {q : JSPart} (qs : List JSPart) (hq : WfPart q) :
    renderParts (q :: qs) ≠ [] := by
  rw [renderParts]
  by_cases hqs : renderParts qs = []
  · rw [hqs, concat_nil_right]; exact createPart_ne_nil hq
  · rw [concat_normal (createPart_ne_nil hq) hqs]
    simp [hqs]

/-- The rendering of a nonempty part list starts with the first part's
block. -/
theorem renderParts_cons_head {q : JSPart} (qs : List JSPart) (hq : WfPart q) :
    (renderParts (q :: qs)).head? = (ObjectPath.createPart q).head? := by
  rw [renderParts]
  by_cases hqs : renderParts qs = []
  · rw [hqs, concat_nil_right]
  · rw [concat_normal (createPart_ne_nil hq) hqs,
      List.head?_append_of_ne_nil _ (trimOneDot_ne_nil (createPart_two_le hq))]
    exact head?_trimOneDot (createPart_two_le hq)

/-- Trimming keeps a head that is not a dot. -/
theorem trimEndDots_cons_ne {c : Char} (t : List Char) (hc : c ≠ '.') :
    trimEndDots (c :: t) = c :: trimEndDots t := by
  rw [trimEndDots, if_neg]
  intro h
  exact hc h.2

/-- Trimming distributes over an append whose right part trims to a nonempty
list. -/
theorem trimEndDots_append {R : List Char} (X : List Char)
    (hR : trimEndDots R ≠ []) :
    trimEndDots (X ++ R) = X ++ trimEndDots R := by
  induction X with
  | nil => rfl
  | cons c X ih =>
      rw [List.cons_append, trimEndDots, ih, if_neg]
      · rfl
      · intro h
        exact hR (List.append_eq_nil.mp h.1).2

/-- Trimming a dot-free name with one trailing delimiter gives back the
name. -/
theorem trimEndDots_name_dot {s : List Char} (hs : ∀ c ∈ s, c ≠ '.') :
    trimEndDots (s ++ ['.']) = s := by
  induction s with
  | nil => rfl
  | cons c s ih =>
      rw [List.cons_append, trimEndDots, ih (fun d hd => hs d (by simp [hd])),
        if_neg]
      intro h
      exact hs c (by simp) h.2

/-- Trimming is idempotent. -/
theorem trimEndDots_idem (l : List Char) :
    trimEndDots (trimEndDots l) = trimEndDots l := by
  induction l with
  | nil => rfl
  | cons c t ih =>
      rw [trimEndDots]
      split
      next h => rfl
      next h => rw [trimEndDots, ih, if_neg h]

/-- A scan through an all-satisfying run stops exactly at the first
non-satisfying character. -/
theorem takeWhile_append_stop (p : Char → Bool) (s : List Char) (x : Char)
    (T : List Char) (hs : ∀ c ∈ s, p c = true) (hx : p x = false) :
    (s ++ x :: T).takeWhile p = s ∧ (s ++ x :: T).dropWhile p = x :: T := by
  induction s with
  | nil =>
      constructor
      · simp [List.takeWhile_cons, hx]
      · simp [List.dropWhile_cons, hx]
  | cons c s ih =>
      have hc : p c = true := hs c (by simp)
      have ihh := ih (fun d hd => hs d (by simp [hd]))
      constructor
      · simp [List.takeWhile_cons, hc, ihh.1]
      · simp [List.dropWhile_cons, hc, ihh.2]

/-- A scan through an all-satisfying list takes everything. -/
theorem takeWhile_run (p : Char → Bool) (s : List Char)
    (hs : ∀ c ∈ s, p c = true) :
    s.takeWhile p = s ∧ s.dropWhile p = [] := by
  induction s with
  | nil => exact ⟨rfl, rfl⟩
  | cons c s ih =>
      have hc : p c = true := hs c (by simp)
      have ihh := ih (fun d hd => hs d (by simp [hd]))
      constructor
      · simp [List.takeWhile_cons, hc, ihh.1]
      · simp [List.dropWhile_cons, hc, ihh.2]

/-- The rendering of a nonempty well-formed part list starts with `[` when
its first part renders as an index, and with a name character otherwise. -/
theorem render_head_char {q : JSPart} (qs : List JSPart) (hq : WfPart q) :
    ∃ r0 R', renderParts (q :: qs) = r0 :: R' ∧
      ((bracketKind q = true ∧ r0 = '[') ∨
        (bracketKind q = false ∧ nameChar r0 = true)) := by
  obtain ⟨r0, R', hRc⟩ : ∃ r0 R', renderParts (q :: qs) = r0 :: R' := by
    cases hh : renderParts (q :: qs) with
    | nil => exact absurd hh (renderParts_cons_ne_nil qs hq)
    | cons a b => exact ⟨a, b, rfl⟩
  refine ⟨r0, R', hRc, ?_⟩
  have hhead := renderParts_cons_head qs hq
  rw [hRc] at hhead
  by_cases hbq : bracketKind q = true
  · left
    refine ⟨hbq, ?_⟩
    rw [createPart_bracket hq hbq] at hhead
    simpa using hhead
  · right
    have hbf : bracketKind q = false := by simpa using hbq
    refine ⟨hbf, ?_⟩
    rw [createPart_name hq hbf] at hhead
    obtain ⟨c0, rest, hcs⟩ : ∃ c0 rest, canonSeg q = c0 :: rest := by
      cases hcse : canonSeg q with
      | nil => exact absurd hcse (canonSeg_wf hq).1
      | cons a b => exact ⟨a, b, rfl⟩
    rw [hcs] at hhead
    simp only [List.cons_append, List.head?_cons, Option.some_inj] at hhead
    rw [hhead]
    exact (canonSeg_wf hq).2 c0 (by rw [hcs]; simp)

/-- Parsing a leading bracket block yields its content as one segment. -/
theorem parse_bracket_block (content T : List Char)
    (hc : ∀ c ∈ content, nameChar c = true) :
    parseSegs ('[' :: (content ++ ']' :: T)) = content :: parseSegs T := by
  rw [parseSegs_bracket]
  have hnotr : ∀ c ∈ content, (c != ']') = true := fun c hcc => by
    have h3 := (nameChar_spec (hc c hcc)).2.2
    simpa using h3
  have hstop := takeWhile_append_stop (· != ']') content ']' T hnotr (by decide)
  rw [hstop.1, hstop.2]
  rfl

/-- Parsing a leading name run yields it as one segment, provided whatever
follows does not continue the run. -/
theorem parse_name_block (c0 : Char) (restp T : List Char)
    (hc0 : nameChar c0 = true) (hrest : ∀ c ∈ restp, nameChar c = true)
    (hT : T = [] ∨ ∃ x T', T = x :: T' ∧ nameChar x = false) :
    parseSegs ((c0 :: restp) ++ T) = (c0 :: restp) :: parseSegs T := by
  have hs := nameChar_spec hc0
  rw [List.cons_append, parseSegs_name (restp ++ T) hs.1 hs.2.1]
  rcases hT with rfl | ⟨x, T', rfl, hx⟩
  · rw [List.append_nil]
    have hrun := takeWhile_run nameChar restp hrest
    rw [hrun.1, hrun.2]
  · have hstop := takeWhile_append_stop nameChar restp x T' hrest hx
    rw [hstop.1, hstop.2]

/-- A bracket-rendered part survives `trimOneDot` unchanged (it ends in the
closing bracket). -/
theorem trimOneDot_createPart_bracket {p : JSPart} (hp : WfPart p)
    (hbp : bracketKind p = true) :
    trimOneDot (ObjectPath.createPart p) = '[' :: (canonSeg p ++ [']']) := by
  rw [createPart_bracket hp hbp, trimOneDot, if_neg]
  intro hlast
  rw [show '[' :: (canonSeg p ++ [']']) = ('[' :: canonSeg p) ++ [']'] from rfl,
    List.getLast?_concat] at hlast
  exact absurd (Option.some.inj hlast) (by decide)

/-- A name-rendered part loses exactly its trailing delimiter under
`trimOneDot`. -/
theorem trimOneDot_createPart_name {p : JSPart} (hp : WfPart p)
    (hbp : bracketKind p = false) :
    trimOneDot (ObjectPath.createPart p) = canonSeg p := by
  rw [createPart_name hp hbp, trimOneDot,
    if_pos (List.getLast?_concat (canonSeg p)), List.dropLast_concat]

/-- The round-trip core: parsing the trimmed rendering of a well-formed part
list recovers the canonical segments. -/
theorem parse_render : ∀ ps : List JSPart, (∀ p ∈ ps, WfPart p) →
    parseSegs (trimEndDots (renderParts ps)) = ps.map canonSeg := by
  intro ps
  induction ps with
  | nil => intro _; rfl
  | cons p ps ih =>
      intro hwf
      have hp : WfPart p := hwf p (by simp)
      have hwfs : ∀ q ∈ ps, WfPart q := fun q hq => hwf q (by simp [hq])
      have hcanon := canonSeg_wf hp
      obtain ⟨c0, restp, hcs⟩ : ∃ c0 restp, canonSeg p = c0 :: restp := by
        cases hcse : canonSeg p with
        | nil => exact absurd hcse hcanon.1
        | cons a b => exact ⟨a, b, rfl⟩
      have hc0 : nameChar c0 = true := hcanon.2 c0 (by rw [hcs]; simp)
      have hrest : ∀ c ∈ restp, nameChar c = true := fun c hc =>
        hcanon.2 c (by rw [hcs]; simp [hc])
      cases ps with
      | nil =>
          have h1 : renderParts [p] = ObjectPath.createPart p := by
            rw [renderParts, renderParts, concat_nil_right]
          rw [h1]
          by_cases hbp : bracketKind p = true
          · rw [createPart_bracket hp hbp]
            have e1 : trimEndDots ([']'] : List Char) = [']'] := by decide
            have htr : trimEndDots ('[' :: (canonSeg p ++ [']']))
                = '[' :: (canonSeg p ++ [']']) := by
              rw [show '[' :: (canonSeg p ++ [']'])
                  = ('[' :: canonSeg p) ++ [']'] from rfl,
                trimEndDots_append ('[' :: canonSeg p) (by rw [e1]; simp), e1]
            rw [htr,
              show '[' :: (canonSeg p ++ [']'])
                = '[' :: (canonSeg p ++ ']' :: ([] : List Char)) from rfl,
              parse_bracket_block (canonSeg p) [] hcanon.2]
            rfl
          · have hbf : bracketKind p = false := by simpa using hbp
            rw [createPart_name hp hbf,
              trimEndDots_name_dot (fun c hc => (nameChar_spec (hcanon.2 c hc)).1),
              hcs,
              show (c0 :: restp : List Char) = (c0 :: restp) ++ ([] : List Char) by
                simp,
              parse_name_block c0 restp [] hc0 hrest (Or.inl rfl)]
            rw [List.map_cons, hcs]
            rfl
      | cons q qs =>
          have hq : WfPart q := hwfs q (by simp)
          obtain ⟨r0, R', hRc, hkind⟩ := render_head_char qs hq
          have hr0ne : r0 ≠ '.' := by
            rcases hkind with ⟨_, rfl⟩ | ⟨_, hn⟩
            · decide
            · exact (nameChar_spec hn).1
          have hTc : trimEndDots (renderParts (q :: qs)) = r0 :: trimEndDots R' := by
            rw [hRc]
            exact trimEndDots_cons_ne R' hr0ne
          have hTne : trimEndDots (renderParts (q :: qs)) ≠ [] := by
            rw [hTc]
            simp
          have hIH := ih hwfs
          have hRne : renderParts (q :: qs) ≠ [] := by rw [hRc]; simp
          have hcn := concat_normal (createPart_ne_nil hp) hRne
          have key : trimEndDots (renderParts (p :: q :: qs))
              = trimOneDot (ObjectPath.createPart p)
                ++ (sepFor (renderParts (q :: qs))
                  ++ trimEndDots (renderParts (q :: qs))) := by
            rw [show renderParts (p :: q :: qs)
                = ObjectPath.concat (ObjectPath.createPart p)
                  (renderParts (q :: qs)) from rfl,
              hcn, ← List.append_assoc, trimEndDots_append _ hTne,
              List.append_assoc]
          rw [key]
          rcases hkind with ⟨hbq, hr0b⟩ | ⟨hbq, hnr0⟩
          · have hsep : sepFor (renderParts (q :: qs)) = [] := by
              rw [sepFor, if_pos]
              rw [hRc, hr0b]
              rfl
            rw [hsep, List.nil_append]
            by_cases hbp : bracketKind p = true
            · rw [trimOneDot_createPart_bracket hp hbp,
                show ('[' :: (canonSeg p ++ [']']))
                    ++ trimEndDots (renderParts (q :: qs))
                  = '[' :: (canonSeg p
                    ++ ']' :: trimEndDots (renderParts (q :: qs))) by simp,
                parse_bracket_block _ _ hcanon.2, hIH]
              rfl
            · have hbf : bracketKind p = false := by simpa using hbp
              rw [trimOneDot_createPart_name hp hbf, hcs,
                parse_name_block c0 restp _ hc0 hrest
                  (Or.inr ⟨'[', trimEndDots R', by rw [hTc, hr0b], by decide⟩),
                hIH]
              simp [hcs]
          · have hsep : sepFor (renderParts (q :: qs)) = ['.'] := by
              rw [sepFor, if_neg]
              rw [hRc]
              intro hh
              exact (nameChar_spec hnr0).2.1 (Option.some.inj hh)
            rw [hsep]
            by_cases hbp : bracketKind p = true
            · rw [trimOneDot_createPart_bracket hp hbp, List.singleton_append,
                show ('[' :: (canonSeg p ++ [']']))
                    ++ ('.' :: trimEndDots (renderParts (q :: qs)))
                  = '[' :: (canonSeg p
                    ++ ']' :: ('.' :: trimEndDots (renderParts (q :: qs)))) by simp,
                parse_bracket_block _ _ hcanon.2, parseSegs_dot, hIH]
              rfl
            · have hbf : bracketKind p = false := by simpa using hbp
              rw [trimOneDot_createPart_name hp hbf, hcs, List.singleton_append,
                parse_name_block c0 restp _ hc0 hrest
                  (Or.inr ⟨'.', trimEndDots (renderParts (q :: qs)), rfl, by decide⟩),
                parseSegs_dot, hIH]
              simp [hcs]

/-- Counterexample to claim C9: for the single integer-index segment `1`,
`create` renders `[1]`, and lodash `toPath` parses it back as the digit
STRING `"1"`, not the integer `1` — the reconstructed segment list differs
from the original one.  (The analogous failure hits empty-string segments,
which are dropped, and names containing `.`/`[`/`]`, which are re-split.) -/
theorem c9_roundtrip_numeric_cex :
    (ObjectPath.toArray (ObjectPath.toString
        (ObjectPath.create [JSPart.num 1]))).map JSPart.str
        = [JSPart.str ['1']] ∧
      ([JSPart.str ['1']] : List JSPart) ≠ [JSPart.num 1] := by
  constructor
  · decide
  · decide

/-- Claim C9 as amended: for every sequence of segments in which each
field-name string is nonempty and free of the characters `.`, `[` and `]`,
`toArray(toString(create(...segments)))` reconstructs the segments in order,
with integer indices (and all-digit name strings, which render as indices)
coming back as their decimal digit strings — lodash `toPath` returns only
strings. -/
theorem c9_roundtrip_amended (segs : List JSPart) (hwf : ∀ p ∈ segs, WfPart p) :
    ObjectPath.toArray (ObjectPath.toString (ObjectPath.create segs))
      = segs.map canonSeg := by
  rw [ObjectPath.toArray, ObjectPath.toString, ObjectPath.toString,
    create_eq_render, trimEndDots_idem]
  exact parse_render segs hwf

/-- Witness for the amended claim C9 at the segment list `["a", 0, "b"]`:
the round trip yields `["a", "0", "b"]`. -/
theorem c9_roundtrip_witness :
    (∀ p ∈ [JSPart.str ['a'], JSPart.num 0, JSPart.str ['b']], WfPart p) ∧
      ObjectPath.toArray (ObjectPath.toString
          (ObjectPath.create [JSPart.str ['a'], JSPart.num 0, JSPart.str ['b']]))
        = [JSPart.str ['a'], JSPart.num 0, JSPart.str ['b']].map canonSeg :=
  ⟨by decide, c9_roundtrip_amended _ (by decide)⟩
